import Mathlib

/-!
Verification of the complex-number value type implemented in
`src/complexNumber.js`, embedded shallowly over the real numbers: every
JavaScript number is modelled as a real, `Math.cos` / `Math.sin` /
`Math.sqrt` / `Math.log` / `Math.pow` as the corresponding real functions,
`Math.atan2 (y, x)` as the principal argument of the complex point `(x, y)`,
and the JavaScript `%` operator as the truncating remainder.  Operations
that can throw are modelled as `Option`-valued functions, `none` standing
for the thrown error.
-/

open Classical

noncomputable section

/-- ComplexNumberConfig.TOLERANCE from `src/complexNumberConfig.js` (1E-12). -/
def TOLERANCE : ℝ := 1 / 10 ^ 12

/-- The constant TWO_PI from the source (`Math.PI + Math.PI`). -/
def TWO_PI : ℝ := Real.pi + Real.pi

/-- JavaScript `Math.atan2(y, x)`: the angle of the point `(x, y)` measured from
the positive x-axis, in the half-open range `(-π, π]`. -/
def atan2 (y x : ℝ) : ℝ := Complex.arg ⟨x, y⟩

/-- The integer part used by the JavaScript `%` operator (truncation toward zero). -/
def rtrunc (x : ℝ) : ℤ := if 0 ≤ x then ⌊x⌋ else ⌈x⌉

/-- JavaScript remainder `x % y`: the sign follows the dividend. -/
def jsRem (x y : ℝ) : ℝ := x - y * (rtrunc (x / y) : ℝ)

/-- The immutable complex-number value: the four stored fields
`#real`, `#imaginary`, `#modulus`, `#argument`. -/
structure ComplexNumber where
  real : ℝ
  imaginary : ℝ
  modulus : ℝ
  argument : ℝ

namespace ComplexNumber

/-- Accessor `re`: returns the stored real field verbatim. -/
def re (x : ComplexNumber) : ℝ := x.real

/-- Accessor `im`: returns the stored imaginary field verbatim. -/
def im (x : ComplexNumber) : ℝ := x.imaginary

/-- Accessor `mod`: returns the stored modulus field verbatim. -/
def mod (x : ComplexNumber) : ℝ := x.modulus

/-- Accessor `arg`: returns the stored argument field verbatim. -/
def arg (x : ComplexNumber) : ℝ := x.argument

@[simp] theorem re_mk (a b c d : ℝ) : (⟨a, b, c, d⟩ : ComplexNumber).re = a := rfl

@[simp] theorem im_mk (a b c d : ℝ) : (⟨a, b, c, d⟩ : ComplexNumber).im = b := rfl

@[simp] theorem mod_mk (a b c d : ℝ) : (⟨a, b, c, d⟩ : ComplexNumber).mod = c := rfl

@[simp] theorem arg_mk (a b c d : ℝ) : (⟨a, b, c, d⟩ : ComplexNumber).arg = d := rfl

/-- `ComplexNumber.withinTolerance(a, b)`. -/
def withinTolerance (a b : ℝ) : Prop := |a - b| ≤ TOLERANCE

/-- `ComplexNumber.modulusSquared(real, imaginary)`. -/
def modulusSquared (real imaginary : ℝ) : ℝ := real ^ 2 + imaginary ^ 2

/-- The private static `#argumentOf(real, imaginary)`: 0 when both components are
within tolerance of 0, otherwise the principal argument shifted into `[0, 2π)`. -/
def argumentOf (real imaginary : ℝ) : ℝ :=
  if withinTolerance real 0 ∧ withinTolerance imaginary 0 then 0
  else if atan2 imaginary real < 0 then atan2 imaginary real + TWO_PI
  else atan2 imaginary real

/-- `ComplexNumber.rectangularToPolar(real, imaginary)`: the pair (modulus, argument). -/
def rectangularToPolar (real imaginary : ℝ) : ℝ × ℝ :=
  (Real.sqrt (modulusSquared real imaginary), argumentOf real imaginary)

/-- `ComplexNumber.polarToRectangular(modulus, argument)` after its nonnegative-modulus
precondition has passed: `[cos, sin].map(c => c * modulus)`. -/
def polarToRectangular (modulus argument : ℝ) : ℝ × ℝ :=
  (Real.cos argument * modulus, Real.sin argument * modulus)

/-- `ComplexNumber.createRectangular(real, imaginary)`: stores the inputs verbatim and
derives the polar pair via rectangularToPolar.  Its only precondition is a type check,
so in this embedding it is total. -/
def createRectangular (real imaginary : ℝ) : ComplexNumber :=
  ⟨real, imaginary, (rectangularToPolar real imaginary).1, (rectangularToPolar real imaginary).2⟩

/-- The argument reduction performed by createPolar when the modulus is not within
tolerance of 0: `argument %= TWO_PI; if (argument < 0) argument += TWO_PI`. -/
def reduceArg (argument : ℝ) : ℝ :=
  if jsRem argument TWO_PI < 0 then jsRem argument TWO_PI + TWO_PI else jsRem argument TWO_PI

/-- The value `ComplexNumber.createPolar(modulus, argument)` builds once the
nonnegative-modulus precondition has passed: snap the argument to 0 when the modulus is
within tolerance of 0, otherwise reduce it into `[0, 2π)`, then derive the rectangular
pair via polarToRectangular. -/
def createPolarFn (modulus argument : ℝ) : ComplexNumber :=
  if withinTolerance modulus 0 then
    ⟨(polarToRectangular modulus 0).1, (polarToRectangular modulus 0).2, modulus, 0⟩
  else
    ⟨(polarToRectangular modulus (reduceArg argument)).1,
     (polarToRectangular modulus (reduceArg argument)).2,
     modulus, reduceArg argument⟩

/-- `ComplexNumber.createPolar(modulus, argument)`; `none` models the error thrown by
`Assertions.isNonNegativeNumber` for a negative modulus. -/
def createPolar (modulus argument : ℝ) : Option ComplexNumber :=
  if 0 ≤ modulus then some (createPolarFn modulus argument) else none

/-- The constant ZERO (0 + 0i). -/
def ZERO : ComplexNumber := createRectangular 0 0

/-- The constant EAST (1 + 0i, 1∠0). -/
def EAST : ComplexNumber := createRectangular 1 0

/-- The constant NORTH, alias i (0 + 1i, 1∠π/2). -/
def NORTH : ComplexNumber := createRectangular 0 1

/-- The constant WEST (-1 + 0i, 1∠π). -/
def WEST : ComplexNumber := createRectangular (-1) 0

/-- The constant SOUTH (0 - 1i, 1∠3π/2). -/
def SOUTH : ComplexNumber := createRectangular 0 (-1)

/-- The constant NORTH_EAST (1∠π/4). -/
def NORTH_EAST : ComplexNumber := createPolarFn 1 (Real.pi / 4)

/-- The constant NORTH_WEST (1∠3π/4). -/
def NORTH_WEST : ComplexNumber := createPolarFn 1 (3 * Real.pi / 4)

/-- The constant SOUTH_WEST (1∠5π/4). -/
def SOUTH_WEST : ComplexNumber := createPolarFn 1 (5 * Real.pi / 4)

/-- The constant SOUTH_EAST (1∠7π/4). -/
def SOUTH_EAST : ComplexNumber := createPolarFn 1 (7 * Real.pi / 4)

/-- The derived getter `principalArgument`: recomputes `Math.atan2(im, re)` from the
stored rectangular pair, range `(-π, π]`. -/
def principalArgument (x : ComplexNumber) : ℝ := atan2 x.im x.re

/-- `equals(that)`: both components must match independently within tolerance. -/
def equals (x that : ComplexNumber) : Prop :=
  withinTolerance x.re that.re ∧ withinTolerance x.im that.im

/-- Getter `conjugate`. -/
def conjugate (x : ComplexNumber) : ComplexNumber := createRectangular x.re (-x.im)

/-- `add(addend)` (the source sums as `addend.re + this.re`). -/
def add (x addend : ComplexNumber) : ComplexNumber :=
  createRectangular (addend.re + x.re) (addend.im + x.im)

/-- `subtract(subtrahend)`. -/
def subtract (x subtrahend : ComplexNumber) : ComplexNumber :=
  createRectangular (x.re - subtrahend.re) (x.im - subtrahend.im)

/-- `multiply(factor)`: performed in polar coordinates. -/
def multiply (x factor : ComplexNumber) : Option ComplexNumber :=
  createPolar (x.mod * factor.mod) (x.arg + factor.arg)

/-- A real number that passes `Assertions.isIntegerNumber`. -/
def isInteger (d : ℝ) : Prop := ∃ n : ℤ, (n : ℝ) = d

/-- `power(exponent)`: `none` models the error for a non-integral exponent. -/
def power (x : ComplexNumber) (exponent : ℝ) : Option ComplexNumber :=
  if isInteger exponent then createPolar (x.mod ^ exponent) (x.arg * exponent) else none

/-- `root(degree)`: principal root only; `none` models the error thrown when the degree
is not a positive integer. -/
def root (x : ComplexNumber) (degree : ℝ) : Option ComplexNumber :=
  if 0 < degree ∧ isInteger degree then
    createPolar (x.mod ^ (1 / degree)) (x.principalArgument / degree)
  else none

/-- `divide(denominator)`: `none` models the error thrown by `#withAssertedNotZero`
when the denominator equals ZERO within tolerance. -/
def divide (x denominator : ComplexNumber) : Option ComplexNumber :=
  if equals denominator ZERO then none
  else createPolar (x.mod / denominator.mod) (x.arg - denominator.arg)

/-- `normalise()`: `none` models the error thrown when this equals ZERO. -/
def normalise (x : ComplexNumber) : Option ComplexNumber :=
  if equals x ZERO then none else createPolar 1 x.arg

/-- `Log()`: principal natural logarithm. -/
def Log (x : ComplexNumber) : ComplexNumber :=
  createRectangular (Real.log x.mod) x.principalArgument

/-- Getter `inverse`: `EAST.divide(this)`. -/
def inverse (x : ComplexNumber) : Option ComplexNumber := divide EAST x

/-- Getter `negate`: the ZERO constant when this equals ZERO, otherwise the
componentwise negation rebuilt from rectangular coordinates. -/
def negate (x : ComplexNumber) : ComplexNumber :=
  if equals x ZERO then ZERO else createRectangular (-x.re) (-x.im)

/-- `scale(number)`. -/
def scale (x : ComplexNumber) (number : ℝ) : ComplexNumber :=
  createRectangular (x.re * number) (x.im * number)

/-- The values an outside caller can obtain: outputs of the two public factories
(which also cover the nine named constants, each of which the source initialises with a
factory call) and of every arithmetic operation, successful outcomes only. -/
inductive Produced : ComplexNumber → Prop
  | rect : ∀ real imaginary, Produced (createRectangular real imaginary)
  | polar : ∀ modulus argument z, createPolar modulus argument = some z → Produced z
  | addOp : ∀ x y, Produced x → Produced y → Produced (add x y)
  | subOp : ∀ x y, Produced x → Produced y → Produced (subtract x y)
  | mulOp : ∀ x y z, Produced x → Produced y → multiply x y = some z → Produced z
  | divOp : ∀ x y z, Produced x → Produced y → divide x y = some z → Produced z
  | powOp : ∀ x e z, Produced x → power x e = some z → Produced z
  | rootOp : ∀ x d z, Produced x → root x d = some z → Produced z
  | normOp : ∀ x z, Produced x → normalise x = some z → Produced z
  | invOp : ∀ x z, Produced x → inverse x = some z → Produced z
  | conjOp : ∀ x, Produced x → Produced (conjugate x)
  | negOp : ∀ x, Produced x → Produced (negate x)
  | scaleOp : ∀ x k, Produced x → Produced (scale x k)
  | logOp : ∀ x, Produced x → Produced (Log x)

/-- The dual-representation invariant with slack `c` times the tolerance: the stored
rectangular pair matches the polar pair up to `c * TOLERANCE` per component, the stored
modulus is nonnegative, and a modulus within tolerance of 0 forces a zero argument. -/
def InvariantWithin (c : ℝ) (x : ComplexNumber) : Prop :=
  0 ≤ x.mod ∧ (withinTolerance x.mod 0 → x.arg = 0) ∧
    |x.re - x.mod * Real.cos x.arg| ≤ c * TOLERANCE ∧
    |x.im - x.mod * Real.sin x.arg| ≤ c * TOLERANCE

/-- Exact consistency of the four stored fields: the rectangular pair is exactly the
polar pair, the modulus is nonnegative and the argument lies in `[0, 2π)`. -/
def WellFormed (x : ComplexNumber) : Prop :=
  0 ≤ x.mod ∧ 0 ≤ x.arg ∧ x.arg < TWO_PI ∧
    x.re = x.mod * Real.cos x.arg ∧ x.im = x.mod * Real.sin x.arg

end ComplexNumber

open ComplexNumber

theorem TOLERANCE_pos : 0 < TOLERANCE := by norm_num [TOLERANCE]

theorem two_pi_pos : 0 < TWO_PI := by
  have := Real.pi_pos
  unfold TWO_PI
  linarith

theorem two_pi_eq : TWO_PI = 2 * Real.pi := by
  unfold TWO_PI
  ring

theorem jsRem_bounds {y : ℝ} (hy : 0 < y) (x : ℝ) : -y < jsRem x y ∧ jsRem x y < y := by
  have hyne : y ≠ 0 := ne_of_gt hy
  have hq : x / y * y = x := div_mul_cancel₀ x hyne
  unfold jsRem rtrunc
  by_cases h : 0 ≤ x / y
  · rw [if_pos h]
    have h1 : (⌊x / y⌋ : ℝ) ≤ x / y := Int.floor_le _
    have h2 : x / y < ⌊x / y⌋ + 1 := Int.lt_floor_add_one _
    constructor
    · nlinarith [mul_le_mul_of_nonneg_right h1 hy.le]
    · nlinarith [mul_lt_mul_of_pos_right h2 hy]
  · rw [if_neg h]
    have h1 : x / y ≤ ⌈x / y⌉ := Int.le_ceil _
    have h2 : (⌈x / y⌉ : ℝ) < x / y + 1 := Int.ceil_lt_add_one _
    constructor
    · nlinarith [mul_lt_mul_of_pos_right h2 hy]
    · nlinarith [mul_le_mul_of_nonneg_right h1 hy.le]

theorem jsRem_eq_self {x y : ℝ} (hy : 0 < y) (h0 : 0 ≤ x) (h1 : x < y) : jsRem x y = x := by
  have h : 0 ≤ x / y := div_nonneg h0 hy.le
  have hfl : ⌊x / y⌋ = 0 := by
    rw [Int.floor_eq_zero_iff, Set.mem_Ico]
    exact ⟨h, by rw [div_lt_one hy]; exact h1⟩
  unfold jsRem rtrunc
  rw [if_pos h, hfl]
  simp

theorem jsRem_neg_eq {θ : ℝ} (h0 : 0 < θ) (h1 : θ < TWO_PI) : jsRem (-θ) TWO_PI = -θ := by
  have hq : -θ / TWO_PI < 0 := div_neg_of_neg_of_pos (neg_lt_zero.mpr h0) two_pi_pos
  have hcl : ⌈-θ / TWO_PI⌉ = 0 := by
    rw [Int.ceil_eq_zero_iff, Set.mem_Ioc]
    constructor
    · rw [lt_div_iff₀ two_pi_pos]
      linarith
    · exact hq.le
  unfold jsRem rtrunc
  rw [if_neg (not_le.mpr hq), hcl]
  simp

theorem reduceArg_nonneg (θ : ℝ) : 0 ≤ reduceArg θ := by
  unfold reduceArg
  by_cases h : jsRem θ TWO_PI < 0
  · rw [if_pos h]
    have := (jsRem_bounds two_pi_pos θ).1
    linarith
  · rw [if_neg h]
    exact not_lt.mp h

theorem reduceArg_lt (θ : ℝ) : reduceArg θ < TWO_PI := by
  unfold reduceArg
  by_cases h : jsRem θ TWO_PI < 0
  · rw [if_pos h]
    linarith [two_pi_pos]
  · rw [if_neg h]
    exact (jsRem_bounds two_pi_pos θ).2

theorem reduceArg_eq_self {θ : ℝ} (h0 : 0 ≤ θ) (h1 : θ < TWO_PI) : reduceArg θ = θ := by
  unfold reduceArg
  rw [jsRem_eq_self two_pi_pos h0 h1, if_neg (not_lt.mpr h0)]

theorem reduceArg_neg_eq {θ : ℝ} (h0 : 0 < θ) (h1 : θ < TWO_PI) :
    reduceArg (-θ) = TWO_PI - θ := by
  unfold reduceArg
  rw [jsRem_neg_eq h0 h1, if_pos (by linarith : -θ < 0)]
  ring

theorem reduceArg_two_pi : reduceArg TWO_PI = 0 := by
  have h : TWO_PI / TWO_PI = 1 := div_self (ne_of_gt two_pi_pos)
  have hj : jsRem TWO_PI TWO_PI = 0 := by
    unfold jsRem rtrunc
    rw [h, if_pos (by norm_num : (0:ℝ) ≤ 1)]
    push_cast [Int.floor_one]
    ring
  unfold reduceArg
  rw [hj, if_neg (lt_irrefl 0)]

@[simp] theorem createRectangular_re (a b : ℝ) : (createRectangular a b).re = a := rfl

@[simp] theorem createRectangular_im (a b : ℝ) : (createRectangular a b).im = b := rfl

theorem createRectangular_mod (a b : ℝ) :
    (createRectangular a b).mod = Real.sqrt (a ^ 2 + b ^ 2) := rfl

theorem createRectangular_arg (a b : ℝ) :
    (createRectangular a b).arg = argumentOf a b := rfl

theorem ZERO_eq : ZERO = ⟨0, 0, 0, 0⟩ := by
  have hcond : withinTolerance (0:ℝ) 0 ∧ withinTolerance (0:ℝ) 0 := by
    constructor <;> (unfold withinTolerance TOLERANCE; norm_num)
  unfold ZERO createRectangular rectangularToPolar argumentOf modulusSquared
  rw [if_pos hcond]
  norm_num

theorem EAST_eq : EAST = ⟨1, 0, 1, 0⟩ := by
  have hcond : ¬ (withinTolerance (1:ℝ) 0 ∧ withinTolerance (0:ℝ) 0) := by
    intro h
    have h1 := h.1
    unfold withinTolerance TOLERANCE at h1
    norm_num at h1
  have harg : Complex.arg ⟨1, 0⟩ = 0 := by
    have h : (⟨1, 0⟩ : ℂ) = 1 := by
      apply Complex.ext <;> simp
    rw [h, Complex.arg_one]
  unfold EAST createRectangular rectangularToPolar argumentOf modulusSquared atan2
  rw [if_neg hcond, harg, if_neg (lt_irrefl (0:ℝ))]
  norm_num

theorem NORTH_eq : NORTH = ⟨0, 1, 1, Real.pi / 2⟩ := by
  have hcond : ¬ (withinTolerance (0:ℝ) 0 ∧ withinTolerance (1:ℝ) 0) := by
    intro h
    have h2 := h.2
    unfold withinTolerance TOLERANCE at h2
    norm_num at h2
  have harg : Complex.arg ⟨0, 1⟩ = Real.pi / 2 := by
    have h : (⟨0, 1⟩ : ℂ) = Complex.I := by
      apply Complex.ext <;> simp
    rw [h, Complex.arg_I]
  unfold NORTH createRectangular rectangularToPolar argumentOf modulusSquared atan2
  rw [if_neg hcond, harg, if_neg (not_lt.mpr (by positivity : (0:ℝ) ≤ Real.pi / 2))]
  norm_num

theorem equals_ZERO_iff (x : ComplexNumber) :
    equals x ZERO ↔ |x.re| ≤ TOLERANCE ∧ |x.im| ≤ TOLERANCE := by
  unfold equals withinTolerance
  rw [ZERO_eq]
  simp

theorem createPolar_eq_some {m θ : ℝ} {z : ComplexNumber}
    (h : createPolar m θ = some z) : 0 ≤ m ∧ z = createPolarFn m θ := by
  unfold createPolar at h
  by_cases hm : 0 ≤ m
  · rw [if_pos hm] at h
    exact ⟨hm, (Option.some.inj h).symm⟩
  · rw [if_neg hm] at h
    simp at h

theorem createPolar_of_nonneg {m : ℝ} (θ : ℝ) (hm : 0 ≤ m) :
    createPolar m θ = some (createPolarFn m θ) := by
  unfold createPolar
  rw [if_pos hm]

theorem abs_le_sqrt_sq_add (a b : ℝ) : |a| ≤ Real.sqrt (a ^ 2 + b ^ 2) := by
  rw [← Real.sqrt_sq_eq_abs]
  exact Real.sqrt_le_sqrt (by nlinarith [sq_nonneg b])

theorem sqrt_sq_add_eq_abs (a b : ℝ) : Real.sqrt (a ^ 2 + b ^ 2) = Complex.abs ⟨a, b⟩ := by
  rw [Complex.abs_apply, Complex.normSq_mk]
  congr 1
  ring

theorem createPolarFn_invariant {m : ℝ} (θ : ℝ) (hm : 0 ≤ m) {c : ℝ} (hc : 0 ≤ c) :
    InvariantWithin c (createPolarFn m θ) := by
  have hct : 0 ≤ c * TOLERANCE := mul_nonneg hc TOLERANCE_pos.le
  unfold InvariantWithin createPolarFn polarToRectangular
  by_cases h : withinTolerance m 0
  · rw [if_pos h]
    refine ⟨hm, fun _ => rfl, ?_, ?_⟩
    · show |Real.cos 0 * m - m * Real.cos 0| ≤ c * TOLERANCE
      rw [show Real.cos 0 * m - m * Real.cos 0 = 0 by ring, abs_zero]
      exact hct
    · show |Real.sin 0 * m - m * Real.sin 0| ≤ c * TOLERANCE
      rw [show Real.sin 0 * m - m * Real.sin 0 = 0 by ring, abs_zero]
      exact hct
  · rw [if_neg h]
    refine ⟨hm, fun hw => absurd hw h, ?_, ?_⟩
    · show |Real.cos (reduceArg θ) * m - m * Real.cos (reduceArg θ)| ≤ c * TOLERANCE
      rw [show Real.cos (reduceArg θ) * m - m * Real.cos (reduceArg θ) = 0 by ring, abs_zero]
      exact hct
    · show |Real.sin (reduceArg θ) * m - m * Real.sin (reduceArg θ)| ≤ c * TOLERANCE
      rw [show Real.sin (reduceArg θ) * m - m * Real.sin (reduceArg θ) = 0 by ring, abs_zero]
      exact hct

theorem createRectangular_exact {a b : ℝ}
    (h : ¬ (withinTolerance a 0 ∧ withinTolerance b 0)) :
    (createRectangular a b).mod * Real.cos ((createRectangular a b).arg) = a ∧
    (createRectangular a b).mod * Real.sin ((createRectangular a b).arg) = b := by
  have hz : (⟨a, b⟩ : ℂ) ≠ 0 := by
    intro hz0
    apply h
    have ha : a = 0 := by simpa using congrArg Complex.re hz0
    have hb : b = 0 := by simpa using congrArg Complex.im hz0
    subst ha
    subst hb
    constructor <;> (unfold withinTolerance TOLERANCE; norm_num)
  have habs : Complex.abs ⟨a, b⟩ ≠ 0 := Complex.abs.ne_zero hz
  have hmod : (createRectangular a b).mod = Complex.abs ⟨a, b⟩ := by
    rw [createRectangular_mod, sqrt_sq_add_eq_abs]
  have harg : (createRectangular a b).arg =
      if Complex.arg ⟨a, b⟩ < 0 then Complex.arg ⟨a, b⟩ + TWO_PI else Complex.arg ⟨a, b⟩ := by
    rw [createRectangular_arg]
    unfold argumentOf atan2
    rw [if_neg h]
  have hc2 : Real.cos ((createRectangular a b).arg) = Real.cos (Complex.arg ⟨a, b⟩) := by
    rw [harg]
    by_cases hneg : Complex.arg ⟨a, b⟩ < 0
    · rw [if_pos hneg, two_pi_eq, Real.cos_add_two_pi]
    · rw [if_neg hneg]
  have hs2 : Real.sin ((createRectangular a b).arg) = Real.sin (Complex.arg ⟨a, b⟩) := by
    rw [harg]
    by_cases hneg : Complex.arg ⟨a, b⟩ < 0
    · rw [if_pos hneg, two_pi_eq, Real.sin_add_two_pi]
    · rw [if_neg hneg]
  constructor
  · rw [hmod, hc2, Complex.cos_arg hz]
    show Complex.abs ⟨a, b⟩ * ((⟨a, b⟩ : ℂ).re / Complex.abs ⟨a, b⟩) = a
    rw [mul_comm, div_mul_cancel₀ _ habs]
  · rw [hmod, hs2, Complex.sin_arg]
    show Complex.abs ⟨a, b⟩ * ((⟨a, b⟩ : ℂ).im / Complex.abs ⟨a, b⟩) = b
    rw [mul_comm, div_mul_cancel₀ _ habs]

theorem createRectangular_invariant (a b : ℝ) :
    InvariantWithin (1 + Real.sqrt 2) (createRectangular a b) := by
  have hmodnn : 0 ≤ (createRectangular a b).mod := Real.sqrt_nonneg _
  refine ⟨hmodnn, ?_, ?_⟩
  · intro hw
    unfold withinTolerance at hw
    rw [sub_zero, abs_of_nonneg hmodnn] at hw
    rw [createRectangular_mod] at hw
    have ha : withinTolerance a 0 := by
      unfold withinTolerance
      rw [sub_zero]
      exact le_trans (abs_le_sqrt_sq_add a b) hw
    have hb : withinTolerance b 0 := by
      unfold withinTolerance
      rw [sub_zero]
      calc |b| ≤ Real.sqrt (b ^ 2 + a ^ 2) := abs_le_sqrt_sq_add b a
        _ = Real.sqrt (a ^ 2 + b ^ 2) := by rw [add_comm]
        _ ≤ TOLERANCE := hw
    rw [createRectangular_arg]
    unfold argumentOf
    rw [if_pos ⟨ha, hb⟩]
  · by_cases h : withinTolerance a 0 ∧ withinTolerance b 0
    · have harg : (createRectangular a b).arg = 0 := by
        rw [createRectangular_arg]
        unfold argumentOf
        rw [if_pos h]
      have ha : |a| ≤ TOLERANCE := by
        have := h.1
        unfold withinTolerance at this
        rwa [sub_zero] at this
      have hb : |b| ≤ TOLERANCE := by
        have := h.2
        unfold withinTolerance at this
        rwa [sub_zero] at this
      have hmle : Real.sqrt (a ^ 2 + b ^ 2) ≤ Real.sqrt 2 * TOLERANCE := by
        have ha2 : a ^ 2 ≤ TOLERANCE ^ 2 := sq_le_sq' (abs_le.mp ha).1 (abs_le.mp ha).2
        have hb2 : b ^ 2 ≤ TOLERANCE ^ 2 := sq_le_sq' (abs_le.mp hb).1 (abs_le.mp hb).2
        calc Real.sqrt (a ^ 2 + b ^ 2) ≤ Real.sqrt (2 * TOLERANCE ^ 2) :=
              Real.sqrt_le_sqrt (by linarith)
          _ = Real.sqrt 2 * TOLERANCE := by
              rw [Real.sqrt_mul (by norm_num), Real.sqrt_sq TOLERANCE_pos.le]
      rw [harg, Real.cos_zero, Real.sin_zero, mul_one, mul_zero, sub_zero]
      simp only [createRectangular_re, createRectangular_im]
      constructor
      · calc |a - (createRectangular a b).mod|
            ≤ |a| + |(createRectangular a b).mod| := abs_sub _ _
          _ ≤ TOLERANCE + Real.sqrt 2 * TOLERANCE := by
              rw [abs_of_nonneg hmodnn, createRectangular_mod]
              exact add_le_add ha hmle
          _ = (1 + Real.sqrt 2) * TOLERANCE := by ring
      · calc |b| ≤ TOLERANCE := hb
          _ ≤ (1 + Real.sqrt 2) * TOLERANCE := by
              nlinarith [Real.sqrt_nonneg 2, TOLERANCE_pos.le]
    · obtain ⟨hcos, hsin⟩ := createRectangular_exact h
      simp only [createRectangular_re, createRectangular_im]
      rw [hcos, hsin]
      simp only [sub_self, abs_zero]
      have h0 : 0 ≤ (1 + Real.sqrt 2) * TOLERANCE :=
        mul_nonneg (by positivity) TOLERANCE_pos.le
      exact ⟨h0, h0⟩

theorem tinyNeg_eq :
    createRectangular (-(9 / 10 ^ 13)) 0 = ⟨-(9 / 10 ^ 13), 0, 9 / 10 ^ 13, 0⟩ := by
  have hcond : withinTolerance (-(9 / 10 ^ 13) : ℝ) 0 ∧ withinTolerance (0:ℝ) 0 := by
    constructor <;> (unfold withinTolerance TOLERANCE; rw [sub_zero, abs_le]; norm_num)
  unfold createRectangular rectangularToPolar argumentOf modulusSquared
  rw [if_pos hcond,
    show ((-(9 / 10 ^ 13) : ℝ)) ^ 2 + (0:ℝ) ^ 2 = ((9 / 10 ^ 13 : ℝ)) ^ 2 by ring,
    Real.sqrt_sq (by norm_num)]

/-- Claim C1 (amended): every ComplexNumber instance produced by the public factories
(createRectangular, createPolar), by any arithmetic operation, or as a named constant
has a nonnegative stored modulus, has its argument field exactly 0 whenever its modulus
is within tolerance of 0, and its stored real and imaginary components equal
modulus·cos(argument) and modulus·sin(argument) within (1 + √2) times the configured
tolerance. -/
theorem produced_invariant_amended (x : ComplexNumber) (hx : Produced x) :
    InvariantWithin (1 + Real.sqrt 2) x := by
  have hc : (0:ℝ) ≤ 1 + Real.sqrt 2 := by positivity
  induction hx with
  | rect a b => exact createRectangular_invariant a b
  | polar m θ z h =>
      obtain ⟨hm, rfl⟩ := createPolar_eq_some h
      exact createPolarFn_invariant θ hm hc
  | addOp x y hx hy ihx ihy => exact createRectangular_invariant _ _
  | subOp x y hx hy ihx ihy => exact createRectangular_invariant _ _
  | mulOp x y z hx hy h ihx ihy =>
      unfold multiply at h
      obtain ⟨hm, rfl⟩ := createPolar_eq_some h
      exact createPolarFn_invariant _ hm hc
  | divOp x y z hx hy h ihx ihy =>
      unfold divide at h
      by_cases hz : equals y ZERO
      · rw [if_pos hz] at h
        simp at h
      · rw [if_neg hz] at h
        obtain ⟨hm, rfl⟩ := createPolar_eq_some h
        exact createPolarFn_invariant _ hm hc
  | powOp x e z hx h ihx =>
      unfold power at h
      by_cases he : isInteger e
      · rw [if_pos he] at h
        obtain ⟨hm, rfl⟩ := createPolar_eq_some h
        exact createPolarFn_invariant _ hm hc
      · rw [if_neg he] at h
        simp at h
  | rootOp x d z hx h ihx =>
      unfold root at h
      by_cases hd : 0 < d ∧ isInteger d
      · rw [if_pos hd] at h
        obtain ⟨hm, rfl⟩ := createPolar_eq_some h
        exact createPolarFn_invariant _ hm hc
      · rw [if_neg hd] at h
        simp at h
  | normOp x z hx h ihx =>
      unfold normalise at h
      by_cases hz : equals x ZERO
      · rw [if_pos hz] at h
        simp at h
      · rw [if_neg hz] at h
        obtain ⟨hm, rfl⟩ := createPolar_eq_some h
        exact createPolarFn_invariant _ hm hc
  | invOp x z hx h ihx =>
      unfold inverse divide at h
      by_cases hz : equals x ZERO
      · rw [if_pos hz] at h
        simp at h
      · rw [if_neg hz] at h
        obtain ⟨hm, rfl⟩ := createPolar_eq_some h
        exact createPolarFn_invariant _ hm hc
  | conjOp x hx ihx => exact createRectangular_invariant _ _
  | negOp x hx ihx =>
      unfold negate
      by_cases hz : equals x ZERO
      · rw [if_pos hz]
        exact createRectangular_invariant 0 0
      · rw [if_neg hz]
        exact createRectangular_invariant _ _
  | scaleOp x k hx ihx => exact createRectangular_invariant _ _
  | logOp x hx ihx => exact createRectangular_invariant _ _

/-- Witness for C1: the amended invariant holds at the produced instance
createRectangular(0, 0). -/
theorem produced_invariant_amended_witness :
    InvariantWithin (1 + Real.sqrt 2) (ComplexNumber.createRectangular 0 0) :=
  produced_invariant_amended _ (Produced.rect 0 0)

/-- Claim C1 as stated is false: the produced instance createRectangular(−9·10⁻¹³, 0)
stores real = −9·10⁻¹³ while modulus·cos(argument) = 9·10⁻¹³·cos 0 = 9·10⁻¹³, a gap of
1.8·10⁻¹² exceeding the configured tolerance 10⁻¹². -/
theorem produced_invariant_counterexample :
    Produced (createRectangular (-(9 / 10 ^ 13)) 0) ∧
    ¬ (|(createRectangular (-(9 / 10 ^ 13)) 0).re -
        (createRectangular (-(9 / 10 ^ 13)) 0).mod *
          Real.cos ((createRectangular (-(9 / 10 ^ 13)) 0).arg)| ≤ TOLERANCE) := by
  constructor
  · exact Produced.rect _ _
  · intro hcontra
    rw [tinyNeg_eq] at hcontra
    simp only [re_mk, mod_mk, arg_mk] at hcontra
    rw [Real.cos_zero, mul_one] at hcontra
    unfold TOLERANCE at hcontra
    rw [abs_le] at hcontra
    norm_num at hcontra

theorem wt_self (a : ℝ) : withinTolerance a a := by
  unfold withinTolerance
  rw [sub_self, abs_zero]
  exact TOLERANCE_pos.le

theorem wt_zero : withinTolerance 0 0 := wt_self 0

theorem ZERO_re : ZERO.re = 0 := by rw [ZERO_eq, re_mk]

theorem ZERO_im : ZERO.im = 0 := by rw [ZERO_eq, im_mk]

theorem EAST_re : EAST.re = 1 := by rw [EAST_eq, re_mk]

theorem EAST_im : EAST.im = 0 := by rw [EAST_eq, im_mk]

theorem EAST_mod : EAST.mod = 1 := by rw [EAST_eq, mod_mk]

theorem EAST_arg : EAST.arg = 0 := by rw [EAST_eq, arg_mk]

/-- Claim C2: for every modulus m ≥ 0 and every argument θ, createPolar(m, θ) succeeds
and the arg accessor of the returned instance lies in the half-open range [0, 2π). -/
theorem createPolar_arg_range (m θ : ℝ) (hm : 0 ≤ m) :
    ∃ z, createPolar m θ = some z ∧ 0 ≤ z.arg ∧ z.arg < 2 * Real.pi := by
  refine ⟨createPolarFn m θ, createPolar_of_nonneg θ hm, ?_, ?_⟩
  · unfold createPolarFn
    by_cases h : withinTolerance m 0
    · rw [if_pos h]
      exact le_refl 0
    · rw [if_neg h]
      exact reduceArg_nonneg θ
  · unfold createPolarFn
    by_cases h : withinTolerance m 0
    · rw [if_pos h]
      show (0:ℝ) < 2 * Real.pi
      linarith [Real.pi_pos]
    · rw [if_neg h]
      show reduceArg θ < 2 * Real.pi
      have := reduceArg_lt θ
      rwa [two_pi_eq] at this

/-- Witness for C2 at m = 1, θ = −5. -/
theorem createPolar_arg_range_witness :
    ∃ z, createPolar 1 (-5) = some z ∧ 0 ≤ z.arg ∧ z.arg < 2 * Real.pi :=
  createPolar_arg_range 1 (-5) (by norm_num)

/-- Claim C5: for every argument θ, createPolar(0, θ) succeeds, the result equals ZERO
under the tolerance-based equals check, and all four stored fields are within tolerance
of 0. -/
theorem createPolar_zero_modulus (θ : ℝ) :
    ∃ z, createPolar 0 θ = some z ∧ equals z ZERO ∧
      withinTolerance z.re 0 ∧ withinTolerance z.im 0 ∧
      withinTolerance z.mod 0 ∧ withinTolerance z.arg 0 := by
  have hz : createPolarFn 0 θ = ⟨0, 0, 0, 0⟩ := by
    unfold createPolarFn polarToRectangular
    rw [if_pos wt_zero]
    norm_num
  refine ⟨createPolarFn 0 θ, createPolar_of_nonneg θ le_rfl, ?_, ?_, ?_, ?_, ?_⟩ <;>
    rw [hz]
  · rw [ZERO_eq]
    exact ⟨wt_zero, wt_zero⟩
  · exact wt_zero
  · exact wt_zero
  · exact wt_zero
  · exact wt_zero

/-- Claim C10: for 0 < m ≤ TOLERANCE, createPolar(m, θ) snaps only the argument: the
result stores argument exactly 0, modulus exactly m, real exactly m and imaginary
exactly 0, and it still equals ZERO under the tolerance-based equals check. -/
theorem createPolar_tiny_modulus (m θ : ℝ) (h0 : 0 < m) (hle : m ≤ TOLERANCE) :
    createPolar m θ = some ⟨m, 0, m, 0⟩ ∧
    equals (⟨m, 0, m, 0⟩ : ComplexNumber) ZERO := by
  have hwt : withinTolerance m 0 := by
    unfold withinTolerance
    rw [sub_zero, abs_of_pos h0]
    exact hle
  constructor
  · rw [createPolar_of_nonneg θ h0.le]
    congr 1
    unfold createPolarFn polarToRectangular
    rw [if_pos hwt]
    norm_num
  · rw [ZERO_eq]
    refine ⟨?_, ?_⟩
    · show withinTolerance m 0
      exact hwt
    · show withinTolerance 0 0
      exact wt_zero

/-- Witness for C10 at m = 10⁻¹³, θ = 5. -/
theorem createPolar_tiny_modulus_witness :
    createPolar (1 / 10 ^ 13) 5 = some ⟨1 / 10 ^ 13, 0, 1 / 10 ^ 13, 0⟩ ∧
    equals (⟨1 / 10 ^ 13, 0, 1 / 10 ^ 13, 0⟩ : ComplexNumber) ZERO :=
  createPolar_tiny_modulus _ _ (by norm_num) (by unfold TOLERANCE; norm_num)

/-- Claim C7: equals(other) is true exactly when the real components and the imaginary
components each match independently within TOLERANCE, and TOLERANCE is 10⁻¹². -/
theorem equals_componentwise :
    (∀ x y : ComplexNumber,
      equals x y ↔ |x.re - y.re| ≤ TOLERANCE ∧ |x.im - y.im| ≤ TOLERANCE) ∧
    TOLERANCE = 1 / 10 ^ 12 :=
  ⟨fun _ _ => Iff.rfl, rfl⟩

/-- Claim C8: ZERO is an additive identity and negate an additive inverse under the
tolerance-based equals check: x.add(ZERO) equals x and x.add(x.negate) equals ZERO for
every x. -/
theorem additive_identity_inverse (x : ComplexNumber) :
    equals (add x ZERO) x ∧ equals (add x (negate x)) ZERO := by
  constructor
  · refine ⟨?_, ?_⟩
    · show withinTolerance (ZERO.re + x.re) x.re
      rw [ZERO_re, zero_add]
      exact wt_self _
    · show withinTolerance (ZERO.im + x.im) x.im
      rw [ZERO_im, zero_add]
      exact wt_self _
  · by_cases hz : equals x ZERO
    · have hneg : negate x = ZERO := by
        unfold negate
        rw [if_pos hz]
      rw [hneg]
      obtain ⟨h1, h2⟩ := (equals_ZERO_iff x).mp hz
      refine ⟨?_, ?_⟩
      · show withinTolerance (ZERO.re + x.re) ZERO.re
        unfold withinTolerance
        rw [ZERO_re, zero_add, sub_zero]
        exact h1
      · show withinTolerance (ZERO.im + x.im) ZERO.im
        unfold withinTolerance
        rw [ZERO_im, zero_add, sub_zero]
        exact h2
    · have hneg : negate x = createRectangular (-x.re) (-x.im) := by
        unfold negate
        rw [if_neg hz]
      rw [hneg]
      refine ⟨?_, ?_⟩
      · show withinTolerance ((createRectangular (-x.re) (-x.im)).re + x.re) ZERO.re
        rw [createRectangular_re, ZERO_re]
        unfold withinTolerance
        rw [show -x.re + x.re - (0:ℝ) = 0 by ring, abs_zero]
        exact TOLERANCE_pos.le
      · show withinTolerance ((createRectangular (-x.re) (-x.im)).im + x.im) ZERO.im
        rw [createRectangular_im, ZERO_im]
        unfold withinTolerance
        rw [show -x.im + x.im - (0:ℝ) = 0 by ring, abs_zero]
        exact TOLERANCE_pos.le

/-- Claim C3: divide(other) fails exactly when the denominator equals ZERO under the
tolerance-based componentwise check (|other.re| ≤ TOLERANCE and |other.im| ≤ TOLERANCE),
and otherwise returns the instance built from polar coordinates with modulus
this.mod / other.mod and argument this.arg − other.arg. -/
theorem divide_zero_guard (x y : ComplexNumber) (hx : 0 ≤ x.mod) (hy : 0 ≤ y.mod) :
    (divide x y = none ↔ |y.re| ≤ TOLERANCE ∧ |y.im| ≤ TOLERANCE) ∧
    (¬ (|y.re| ≤ TOLERANCE ∧ |y.im| ≤ TOLERANCE) →
      divide x y = some (createPolarFn (x.mod / y.mod) (x.arg - y.arg))) := by
  by_cases hz : equals y ZERO
  · have hnone : divide x y = none := by
      unfold divide
      rw [if_pos hz]
    constructor
    · simp [hnone, (equals_ZERO_iff y).mp hz]
    · intro hc
      exact absurd ((equals_ZERO_iff y).mp hz) hc
  · have hsome : divide x y = some (createPolarFn (x.mod / y.mod) (x.arg - y.arg)) := by
      unfold divide
      rw [if_neg hz]
      exact createPolar_of_nonneg _ (div_nonneg hx hy)
    constructor
    · constructor
      · intro h
        rw [hsome] at h
        simp at h
      · intro h
        exact absurd ((equals_ZERO_iff y).mpr h) hz
    · intro _
      exact hsome

/-- Witness for C3 at x = 1∠0 and y = i (stored as (0, 1, 1, π/2)). -/
theorem divide_zero_guard_witness :
    (divide ⟨1, 0, 1, 0⟩ ⟨0, 1, 1, Real.pi / 2⟩ = none ↔
      |(⟨0, 1, 1, Real.pi / 2⟩ : ComplexNumber).re| ≤ TOLERANCE ∧
      |(⟨0, 1, 1, Real.pi / 2⟩ : ComplexNumber).im| ≤ TOLERANCE) ∧
    (¬ (|(⟨0, 1, 1, Real.pi / 2⟩ : ComplexNumber).re| ≤ TOLERANCE ∧
        |(⟨0, 1, 1, Real.pi / 2⟩ : ComplexNumber).im| ≤ TOLERANCE) →
      divide ⟨1, 0, 1, 0⟩ ⟨0, 1, 1, Real.pi / 2⟩ =
        some (createPolarFn ((⟨1, 0, 1, 0⟩ : ComplexNumber).mod /
            (⟨0, 1, 1, Real.pi / 2⟩ : ComplexNumber).mod)
          ((⟨1, 0, 1, 0⟩ : ComplexNumber).arg -
            (⟨0, 1, 1, Real.pi / 2⟩ : ComplexNumber).arg))) :=
  divide_zero_guard _ _ zero_le_one zero_le_one

theorem not_wt_of_gt {m : ℝ} (h : TOLERANCE < m) : ¬ withinTolerance m 0 := by
  intro hw
  unfold withinTolerance at hw
  rw [sub_zero] at hw
  have := le_abs_self m
  linarith

theorem one_not_wt : ¬ withinTolerance (1:ℝ) 0 :=
  not_wt_of_gt (by unfold TOLERANCE; norm_num)

theorem mod_gt_tol {x : ComplexNumber} (hwf : WellFormed x) (hne : ¬ equals x ZERO) :
    TOLERANCE < x.mod := by
  obtain ⟨hm, _, _, hre, him⟩ := hwf
  by_contra hle
  push_neg at hle
  apply hne
  rw [equals_ZERO_iff]
  constructor
  · rw [hre, abs_mul]
    calc |x.mod| * |Real.cos x.arg| ≤ |x.mod| * 1 :=
          mul_le_mul_of_nonneg_left (Real.abs_cos_le_one _) (abs_nonneg _)
      _ = x.mod := by rw [mul_one, abs_of_nonneg hm]
      _ ≤ TOLERANCE := hle
  · rw [him, abs_mul]
    calc |x.mod| * |Real.sin x.arg| ≤ |x.mod| * 1 :=
          mul_le_mul_of_nonneg_left (Real.abs_sin_le_one _) (abs_nonneg _)
      _ = x.mod := by rw [mul_one, abs_of_nonneg hm]
      _ ≤ TOLERANCE := hle

theorem createPolarFn_one_zero : createPolarFn 1 0 = ⟨1, 0, 1, 0⟩ := by
  unfold createPolarFn polarToRectangular
  rw [if_neg one_not_wt, reduceArg_eq_self le_rfl two_pi_pos]
  norm_num [Real.cos_zero, Real.sin_zero]

theorem createPolarFn_one_two_pi : createPolarFn 1 TWO_PI = ⟨1, 0, 1, 0⟩ := by
  unfold createPolarFn polarToRectangular
  rw [if_neg one_not_wt, reduceArg_two_pi]
  norm_num [Real.cos_zero, Real.sin_zero]

theorem equals_EAST_mk : equals (⟨1, 0, 1, 0⟩ : ComplexNumber) EAST := by
  rw [EAST_eq]
  exact ⟨wt_self 1, wt_self 0⟩

/-- Claim C4 (amended): restricted to exactly polar-consistent instances, EAST is a
multiplicative identity for every x not equal to ZERO, and x.multiply(x.inverse) equals
EAST for every such x whose modulus is additionally below 1/TOLERANCE (for larger
moduli the inverse's modulus falls within tolerance of 0 and its argument is snapped,
breaking the property). -/
theorem multiplicative_identity_inverse_amended (x : ComplexNumber)
    (hwf : WellFormed x) (hne : ¬ equals x ZERO) :
    (∃ z, multiply x EAST = some z ∧ equals z x) ∧
    (x.mod < 1 / TOLERANCE →
      ∃ w v, inverse x = some w ∧ multiply x w = some v ∧ equals v EAST) := by
  obtain ⟨hm, harg0, harglt, hre, him⟩ := hwf
  have htol : TOLERANCE < x.mod := mod_gt_tol ⟨hm, harg0, harglt, hre, him⟩ hne
  have hmpos : 0 < x.mod := lt_trans TOLERANCE_pos htol
  have hnotwt : ¬ withinTolerance x.mod 0 := not_wt_of_gt htol
  constructor
  · have hstep : multiply x EAST = some (createPolarFn (x.mod * 1) (x.arg + 0)) := by
      unfold multiply
      rw [EAST_mod, EAST_arg]
      exact createPolar_of_nonneg _ (mul_nonneg hm zero_le_one)
    refine ⟨_, hstep, ?_⟩
    have hnotwt1 : ¬ withinTolerance (x.mod * 1) 0 := by
      rwa [mul_one]
    have hfn : createPolarFn (x.mod * 1) (x.arg + 0) =
        ⟨Real.cos x.arg * (x.mod * 1), Real.sin x.arg * (x.mod * 1), x.mod * 1, x.arg⟩ := by
      unfold createPolarFn polarToRectangular
      rw [if_neg hnotwt1, add_zero, reduceArg_eq_self harg0 harglt]
    rw [hfn]
    refine ⟨?_, ?_⟩
    · show withinTolerance (Real.cos x.arg * (x.mod * 1)) x.re
      rw [hre, mul_one, mul_comm (Real.cos x.arg) x.mod]
      exact wt_self _
    · show withinTolerance (Real.sin x.arg * (x.mod * 1)) x.im
      rw [him, mul_one, mul_comm (Real.sin x.arg) x.mod]
      exact wt_self _
  · intro hsmall
    have hinvpos : 0 < 1 / x.mod := one_div_pos.mpr hmpos
    have hinv_tol : TOLERANCE < 1 / x.mod := by
      rw [lt_div_iff₀ hmpos]
      have h1 : TOLERANCE * x.mod < TOLERANCE * (1 / TOLERANCE) :=
        mul_lt_mul_of_pos_left hsmall TOLERANCE_pos
      rwa [mul_one_div_cancel (ne_of_gt TOLERANCE_pos)] at h1
    have hnotwt2 : ¬ withinTolerance (1 / x.mod) 0 := not_wt_of_gt hinv_tol
    have hw : inverse x = some (createPolarFn (1 / x.mod) (0 - x.arg)) := by
      unfold inverse divide
      rw [if_neg hne, EAST_mod, EAST_arg]
      exact createPolar_of_nonneg _ hinvpos.le
    have hmulinv : x.mod * (1 / x.mod) = 1 := mul_one_div_cancel (ne_of_gt hmpos)
    have hprodnn : (0:ℝ) ≤ x.mod * (1 / x.mod) := by
      rw [hmulinv]
      exact zero_le_one
    rcases eq_or_lt_of_le harg0 with hzero | hpos
    · have hwfn : createPolarFn (1 / x.mod) (0 - x.arg) =
          ⟨Real.cos 0 * (1 / x.mod), Real.sin 0 * (1 / x.mod), 1 / x.mod, 0⟩ := by
        unfold createPolarFn polarToRectangular
        rw [← hzero, sub_zero, reduceArg_eq_self le_rfl two_pi_pos, if_neg hnotwt2]
      refine ⟨createPolarFn (1 / x.mod) (0 - x.arg),
        createPolarFn (x.mod * (1 / x.mod)) (x.arg + 0), hw, ?_, ?_⟩
      · unfold multiply
        rw [hwfn, mod_mk, arg_mk]
        exact createPolar_of_nonneg _ hprodnn
      · rw [hmulinv, ← hzero, add_zero, createPolarFn_one_zero]
        exact equals_EAST_mk
    · have hwfn : createPolarFn (1 / x.mod) (0 - x.arg) =
          ⟨Real.cos (TWO_PI - x.arg) * (1 / x.mod),
           Real.sin (TWO_PI - x.arg) * (1 / x.mod), 1 / x.mod, TWO_PI - x.arg⟩ := by
        unfold createPolarFn polarToRectangular
        rw [zero_sub, reduceArg_neg_eq hpos harglt, if_neg hnotwt2]
      refine ⟨createPolarFn (1 / x.mod) (0 - x.arg),
        createPolarFn (x.mod * (1 / x.mod)) (x.arg + (TWO_PI - x.arg)), hw, ?_, ?_⟩
      · unfold multiply
        rw [hwfn, mod_mk, arg_mk]
        exact createPolar_of_nonneg _ hprodnn
      · rw [hmulinv, show x.arg + (TWO_PI - x.arg) = TWO_PI by ring,
          createPolarFn_one_two_pi]
        exact equals_EAST_mk

theorem pi_lt_two_pi : Real.pi < TWO_PI := by
  unfold TWO_PI
  linarith [Real.pi_pos]

theorem big_eq : createPolarFn (10 ^ 13) Real.pi = ⟨-(10 ^ 13), 0, 10 ^ 13, Real.pi⟩ := by
  have hnwt : ¬ withinTolerance ((10:ℝ) ^ 13) 0 := not_wt_of_gt (by unfold TOLERANCE; norm_num)
  have hpi : reduceArg Real.pi = Real.pi := reduceArg_eq_self Real.pi_pos.le pi_lt_two_pi
  unfold createPolarFn polarToRectangular
  rw [if_neg hnwt, hpi, Real.cos_pi, Real.sin_pi]
  norm_num

/-- Witness for C4 at the well-formed instance (−1, 0, 1, π) (−1 in polar form). -/
theorem multiplicative_identity_inverse_amended_witness :
    (∃ z, multiply ⟨-1, 0, 1, Real.pi⟩ EAST = some z ∧
      equals z (⟨-1, 0, 1, Real.pi⟩ : ComplexNumber)) ∧
    (∃ w v, inverse ⟨-1, 0, 1, Real.pi⟩ = some w ∧
      multiply ⟨-1, 0, 1, Real.pi⟩ w = some v ∧ equals v EAST) := by
  have hwf : WellFormed (⟨-1, 0, 1, Real.pi⟩ : ComplexNumber) := by
    refine ⟨zero_le_one, Real.pi_pos.le, pi_lt_two_pi, ?_, ?_⟩
    · show (-1:ℝ) = 1 * Real.cos Real.pi
      rw [Real.cos_pi]
      norm_num
    · show (0:ℝ) = 1 * Real.sin Real.pi
      rw [Real.sin_pi]
      norm_num
  have hne : ¬ equals (⟨-1, 0, 1, Real.pi⟩ : ComplexNumber) ZERO := by
    intro h
    rw [equals_ZERO_iff] at h
    obtain ⟨h1, -⟩ := h
    simp only [re_mk] at h1
    unfold TOLERANCE at h1
    rw [abs_le] at h1
    norm_num at h1
  have hsmall : (⟨-1, 0, 1, Real.pi⟩ : ComplexNumber).mod < 1 / TOLERANCE := by
    show (1:ℝ) < 1 / TOLERANCE
    unfold TOLERANCE
    norm_num
  exact ⟨(multiplicative_identity_inverse_amended _ hwf hne).1,
    (multiplicative_identity_inverse_amended _ hwf hne).2 hsmall⟩

/-- Claim C4 as stated is false on two counts.  First, for the produced near-zero
instance x₀ = createRectangular(−9·10⁻¹³, 0), x₀.multiply(EAST) stores real 9·10⁻¹³
while x₀ stores −9·10⁻¹³, so the product does not equal x₀.  Second, for the produced
instance x₁ = createPolar(10¹³, π), which does not equal ZERO, the inverse's modulus
10⁻¹³ is within tolerance of 0 so its argument is snapped to 0, and
x₁.multiply(x₁.inverse) evaluates to −1, which does not equal EAST. -/
theorem multiplicative_identity_inverse_counterexample :
    (multiply (createRectangular (-(9 / 10 ^ 13)) 0) EAST =
        some ⟨9 / 10 ^ 13, 0, 9 / 10 ^ 13, 0⟩ ∧
      ¬ equals (⟨9 / 10 ^ 13, 0, 9 / 10 ^ 13, 0⟩ : ComplexNumber)
        (createRectangular (-(9 / 10 ^ 13)) 0)) ∧
    (createPolar (10 ^ 13) Real.pi = some ⟨-(10 ^ 13), 0, 10 ^ 13, Real.pi⟩ ∧
      ¬ equals (⟨-(10 ^ 13), 0, 10 ^ 13, Real.pi⟩ : ComplexNumber) ZERO ∧
      inverse ⟨-(10 ^ 13), 0, 10 ^ 13, Real.pi⟩ =
        some ⟨1 / 10 ^ 13, 0, 1 / 10 ^ 13, 0⟩ ∧
      multiply (⟨-(10 ^ 13), 0, 10 ^ 13, Real.pi⟩ : ComplexNumber)
        ⟨1 / 10 ^ 13, 0, 1 / 10 ^ 13, 0⟩ = some ⟨-1, 0, 1, Real.pi⟩ ∧
      ¬ equals (⟨-1, 0, 1, Real.pi⟩ : ComplexNumber) EAST) := by
  have hne : ¬ equals (⟨-(10 ^ 13), 0, 10 ^ 13, Real.pi⟩ : ComplexNumber) ZERO := by
    intro h
    rw [equals_ZERO_iff] at h
    obtain ⟨h1, -⟩ := h
    simp only [re_mk] at h1
    unfold TOLERANCE at h1
    rw [abs_le] at h1
    norm_num at h1
  refine ⟨⟨?_, ?_⟩, ?_, hne, ?_, ?_, ?_⟩
  · unfold multiply
    rw [tinyNeg_eq, mod_mk, arg_mk, EAST_mod, EAST_arg, mul_one, add_zero,
      createPolar_of_nonneg 0 (by norm_num : (0:ℝ) ≤ 9 / 10 ^ 13)]
    congr 1
    have hsnap : withinTolerance ((9:ℝ) / 10 ^ 13) 0 := by
      unfold withinTolerance TOLERANCE
      rw [sub_zero, abs_of_pos (by norm_num)]
      norm_num
    unfold createPolarFn polarToRectangular
    rw [if_pos hsnap]
    norm_num [Real.cos_zero, Real.sin_zero]
  · intro h
    obtain ⟨h1, -⟩ := h
    rw [tinyNeg_eq] at h1
    show False
    have h2 : withinTolerance ((9:ℝ) / 10 ^ 13) (-(9 / 10 ^ 13)) := h1
    unfold withinTolerance TOLERANCE at h2
    rw [abs_le] at h2
    norm_num at h2
  · rw [createPolar_of_nonneg Real.pi (by norm_num : (0:ℝ) ≤ 10 ^ 13), big_eq]
  · unfold inverse divide
    rw [if_neg hne, EAST_mod, EAST_arg, mod_mk, arg_mk,
      createPolar_of_nonneg _ (by norm_num : (0:ℝ) ≤ 1 / 10 ^ 13)]
    congr 1
    have hsnap : withinTolerance ((1:ℝ) / 10 ^ 13) 0 := by
      unfold withinTolerance TOLERANCE
      rw [sub_zero, abs_of_pos (by norm_num)]
      norm_num
    unfold createPolarFn polarToRectangular
    rw [if_pos hsnap]
    norm_num [Real.cos_zero, Real.sin_zero]
  · unfold multiply
    simp only [mod_mk, arg_mk]
    rw [show (10:ℝ) ^ 13 * (1 / 10 ^ 13) = 1 by norm_num, add_zero,
      createPolar_of_nonneg _ zero_le_one]
    congr 1
    have hpi : reduceArg Real.pi = Real.pi := reduceArg_eq_self Real.pi_pos.le pi_lt_two_pi
    unfold createPolarFn polarToRectangular
    rw [if_neg one_not_wt, hpi, Real.cos_pi, Real.sin_pi]
    norm_num
  · intro h
    obtain ⟨h1, -⟩ := h
    rw [EAST_eq] at h1
    have h2 : withinTolerance (-1 : ℝ) 1 := h1
    unfold withinTolerance TOLERANCE at h2
    rw [abs_le] at h2
    norm_num at h2

theorem NORTH_mod : NORTH.mod = 1 := by rw [NORTH_eq, mod_mk]

theorem NORTH_principalArgument : NORTH.principalArgument = Real.pi / 2 := by
  unfold principalArgument atan2
  rw [show NORTH.im = 1 from by rw [NORTH_eq, im_mk],
    show NORTH.re = 0 from by rw [NORTH_eq, re_mk]]
  have h : (⟨0, 1⟩ : ℂ) = Complex.I := by
    apply Complex.ext <;> simp
  rw [h, Complex.arg_I]

/-- Claim C6: root(degree) fails unless the degree is a positive integer, and otherwise
returns the principal root built from polar coordinates with modulus mod^(1/degree) and
argument principalArgument/degree, where principalArgument is the two-argument
arctangent of the stored (im, re) pair with range (−π, π] — not the stored [0, 2π)
argument; illustrated by the principal cube root of i being (√3/2, 1/2). -/
theorem root_principal :
    (∀ (x : ComplexNumber) (d : ℝ), 0 ≤ x.mod → 0 < d → isInteger d →
      root x d = some (createPolarFn (x.mod ^ (1 / d)) (atan2 x.im x.re / d))) ∧
    (∀ (x : ComplexNumber) (d : ℝ), ¬ (0 < d ∧ isInteger d) → root x d = none) ∧
    (∀ x : ComplexNumber, x.principalArgument ∈ Set.Ioc (-Real.pi) Real.pi) ∧
    (∃ z, root NORTH 3 = some z ∧
      equals z (createRectangular (Real.sqrt 3 / 2) (1 / 2))) := by
  refine ⟨?_, ?_, ?_, ?_⟩
  · intro x d hm hd hint
    unfold root
    rw [if_pos ⟨hd, hint⟩]
    exact createPolar_of_nonneg _ (Real.rpow_nonneg hm _)
  · intro x d hcond
    unfold root
    rw [if_neg hcond]
  · intro x
    exact Complex.arg_mem_Ioc _
  · refine ⟨createPolarFn 1 (Real.pi / 6), ?_, ?_⟩
    · unfold root
      rw [if_pos ⟨(by norm_num : (0:ℝ) < 3), ⟨3, by norm_num⟩⟩, NORTH_mod,
        NORTH_principalArgument, Real.one_rpow,
        show Real.pi / 2 / 3 = Real.pi / 6 by ring,
        createPolar_of_nonneg _ zero_le_one]
    · have hfn : createPolarFn 1 (Real.pi / 6) =
          ⟨Real.cos (Real.pi / 6) * 1, Real.sin (Real.pi / 6) * 1, 1, Real.pi / 6⟩ := by
        unfold createPolarFn polarToRectangular
        rw [if_neg one_not_wt,
          reduceArg_eq_self (by positivity) (by unfold TWO_PI; linarith [Real.pi_pos])]
      rw [hfn]
      refine ⟨?_, ?_⟩
      · show withinTolerance (Real.cos (Real.pi / 6) * 1) (Real.sqrt 3 / 2)
        rw [Real.cos_pi_div_six, mul_one]
        exact wt_self _
      · show withinTolerance (Real.sin (Real.pi / 6) * 1) (1 / 2)
        rw [Real.sin_pi_div_six, mul_one]
        exact wt_self _

/-- Witness for C6: the success equation of root at x = ZERO, degree = 2. -/
theorem root_principal_witness :
    root ZERO 2 = some (createPolarFn (ZERO.mod ^ (1 / (2:ℝ)))
      (atan2 ZERO.im ZERO.re / 2)) :=
  root_principal.1 ZERO 2 (Real.sqrt_nonneg _) (by norm_num) ⟨2, by norm_num⟩
